import Mathlib

/-!
Shallow embedding of the AnalyticsWiz data-processing layer.

Sources embedded:
  * `src/utils/data_processor.py` — class `DataProcessor`
    (`_detect_columns`, `get_top_n`, `get_distribution`,
     `get_weekly_aggregation`, `get_grouped_analysis`);
  * `src/utils/text_analytics.py` — class `TextAnalyzer`
    (`clean_text`, `categorize_text`);
  * `src/config.py` — `COLUMN_MAPPING`, `DYNAMIC_COLUMNS`, `KEYWORDS`.

Modelling conventions:
  * Python strings are `Str := List Char`; `str.lower()` is modelled for the
    ASCII range (all keyword tables and claims are ASCII).
  * Polars columns are `List (Option α)` — `none` is a null cell.
  * A dataframe is a list of column names together with rows, a row being a
    map from column name to optional cell value.
  * Floating-point percentage arithmetic is idealised over `ℚ`;
    `Series.round(d)` (Rust f64 semantics: round half away from zero at the
    d-th decimal) is `roundTo (10^d)`.
  * Dates are days since 1970-01-01 (a Thursday), as `ℕ`.
-/

abbrev Str := List Char

/-- ASCII case folding: the fragment of Python `str.lower()` exercised here. -/
def asciiLower (c : Char) : Char :=
  if 'A' ≤ c ∧ c ≤ 'Z' then Char.ofNat (c.toNat + 32) else c

/-- `str.lower()` on an ASCII string. -/
def lowerStr (s : Str) : Str := s.map asciiLower

/-- The whitespace characters recognised by Python `str.split()` (ASCII part). -/
def isPySpace (c : Char) : Bool :=
  c = ' ' || c = '\t' || c = '\n' || c = '\r' || c = '\x0b' || c = '\x0c'

/-- One step of `str.split()`, consuming the string from the right:
    the accumulator is (current word, completed words). -/
def splitStep (c : Char) (acc : Str × List Str) : Str × List Str :=
  if isPySpace c then ([], if acc.1.isEmpty then acc.2 else acc.1 :: acc.2)
  else (c :: acc.1, acc.2)

/-- Python `str.split()` with no argument: split on runs of whitespace,
    discarding empty fields. -/
def splitWs (s : Str) : List Str :=
  let r := s.foldr splitStep ([], [])
  if r.1.isEmpty then r.2 else r.1 :: r.2

/-- Python `' '.join(ws)`. -/
def joinSpace : List Str → Str
  | [] => []
  | [w] => w
  | w :: ws => w ++ ' ' :: joinSpace ws

/-- Boolean prefix test on character lists. -/
def isPrefixOfB : Str → Str → Bool
  | [], _ => true
  | _ :: _, [] => false
  | a :: as, b :: bs => a = b && isPrefixOfB as bs

/-- Python `needle in hay` (substring containment). -/
def containsSub (hay needle : Str) : Bool :=
  match hay with
  | [] => needle.isEmpty
  | _ :: t => isPrefixOfB needle hay || containsSub t needle

/-- Round a rational to the nearest integer, halves away from zero
    (the rounding used by Rust `f64::round`, hence by Polars `.round`). -/
def roundHalfAway (q : ℚ) : ℤ :=
  if q < 0 then -⌊-q + 1/2⌋ else ⌊q + 1/2⌋

/-- Polars `Series.round(d)` where `m = 10^d`: round at the d-th decimal. -/
def roundTo (m : ℕ) (q : ℚ) : ℚ := (roundHalfAway (q * m) : ℚ) / m

/-- Polars `group_by(col).agg(pl.count())`: one `(key, count)` pair per
    distinct value, keyed in order of first appearance. -/
def groupCounts {α : Type} [DecidableEq α] (l : List α) : List (α × ℕ) :=
  l.dedup.map (fun v => (v, l.count v))

namespace DataProcessor

/-- `DataProcessor.get_top_n` (data_processor.py:82-103): drop nulls, group
    by value with counts, sort by count descending, keep the first `n`.
    The column itself is the argument; the guard `column not in df.columns`
    returns an empty frame and is outside this embedding's precondition. -/
def get_top_n {α : Type} [DecidableEq α] (col : List (Option α)) (n : ℕ) :
    List (Option α × ℕ) :=
  List.take n
    (List.insertionSort (fun a b => b.2 ≤ a.2)
      (groupCounts (col.filter Option.isSome)))

/-- `DataProcessor.get_distribution` (data_processor.py:105-129): `total` is
    the length of the WHOLE dataframe (taken before the null filter), nulls
    are then dropped, groups get `percentage = round(count / total * 100, 2)`,
    and the result is sorted by count descending. -/
def get_distribution {α : Type} [DecidableEq α] (col : List (Option α)) :
    List (Option α × ℕ × ℚ) :=
  let total : ℚ := col.length
  List.insertionSort (fun a b => b.2.1 ≤ a.2.1)
    ((groupCounts (col.filter Option.isSome)).map
      (fun p => (p.1, p.2, roundTo 100 ((p.2 : ℚ) / total * 100))))

end DataProcessor

/-- `config.COLUMN_MAPPING` (config.py:6-13): fixed 0-based positions. -/
def COLUMN_MAPPING : List (String × ℕ) :=
  [("queue", 0), ("date", 9), ("description", 12),
   ("partner", 18), ("country", 20), ("description_translated", 21)]

/-- `config.DYNAMIC_COLUMNS` (config.py:16-19): case-insensitive search
    patterns. -/
def DYNAMIC_COLUMNS : List (String × List String) :=
  [("category", ["category", "cat"]),
   ("subcategory", ["sub-category", "subcategory", "issue", "reason"])]

/-- A dataframe: column names, and rows mapping a column name to an optional
    (nullable) cell value. -/
structure DF where
  cols : List String
  rows : List (String → Option Str)

namespace DataProcessor

/-- `DataProcessor._detect_columns` (data_processor.py:37-55) as the final
    contents of `_column_cache`: the positional loop over `COLUMN_MAPPING`
    binds names whose index is in range, then the dynamic loop binds the first
    column whose lowercased name contains one of the patterns.  The two loops
    write disjoint key sets, so the cache is their association-list union. -/
def detect_columns (cols : List String) : List (String × String) :=
  (COLUMN_MAPPING.filterMap (fun p => (cols[p.2]?).map (fun c => (p.1, c))))
  ++ (DYNAMIC_COLUMNS.filterMap (fun p =>
        (cols.find? (fun c =>
          p.2.any (fun pat => containsSub (lowerStr c.toList) pat.toList))).map
        (fun c => (p.1, c))))

/-- `DataProcessor.get_column` (data_processor.py:57-67): cache lookup,
    `None` when absent. -/
def get_column (cache : List (String × String)) (name : String) :
    Option String :=
  (cache.find? (fun p => p.1 == name)).map (fun p => p.2)

/-- `DataProcessor.get_grouped_analysis` (data_processor.py:298-338).
    The filter applies only when `filter_col` and `filter_pattern` are both
    truthy (present, non-empty) AND `filter_col` is an existing column; it
    keeps rows whose cell is non-null and whose lowercased value matches the
    lowercased pattern (`str.contains`; modelled as substring containment,
    which is its meaning on patterns without regex metacharacters).
    `total` is the post-filter row count; group keys are row restrictions to
    the valid group columns, nulls included (no null filter here). -/
def get_grouped_analysis (df : DF) (group_cols : List String)
    (filter_col filter_pattern : Option String) :
    List (List (Option Str) × ℕ × ℚ) :=
  let rows :=
    match filter_col, filter_pattern with
    | some fc, some fp =>
      if fc ≠ "" ∧ fp ≠ "" ∧ fc ∈ df.cols then
        df.rows.filter (fun r : String → Option Str =>
          match r fc with
          | some v => containsSub (lowerStr v) (lowerStr fp.toList)
          | none => false)
      else df.rows
    | _, _ => df.rows
  let valid := group_cols.filter (fun c => df.cols.contains c)
  if valid.isEmpty then []
  else
    let total := rows.length
    if total = 0 then []
    else
      List.insertionSort (fun a b => b.2.1 ≤ a.2.1)
        ((groupCounts (rows.map (fun r => valid.map r))).map
          (fun p => (p.1, p.2, roundTo 100 ((p.2 : ℚ) / total * 100))))

end DataProcessor

/-! ### Text analytics (src/utils/text_analytics.py, src/config.py KEYWORDS) -/

/-- Python regex `\w` for ASCII: letters, digits, underscore. -/
def wordChar (c : Char) : Bool := c.isAlphanum || c = '_'

def wordCharOpt : Option Char → Bool
  | none => false
  | some c => wordChar c

/-- Character class `[A-Za-z0-9._%+-]` (local part of EMAIL_PATTERN). -/
def localChar (c : Char) : Bool :=
  c.isAlphanum || c = '.' || c = '_' || c = '%' || c = '+' || c = '-'

/-- Character class `[A-Za-z0-9.-]` (domain part of EMAIL_PATTERN). -/
def domainChar (c : Char) : Bool := c.isAlphanum || c = '.' || c = '-'

/-- Character class `[A-Z|a-z]` of EMAIL_PATTERN — it contains a literal
    pipe character. -/
def tldChar (c : Char) : Bool := c.isAlpha || c = '|'

/-- Backtracking for `[A-Z|a-z]{2,}\b` at the end of EMAIL_PATTERN: `run` is
    the greedy character-class run, `after` the text following it; try the
    run length, then shorter, down to 2, until the word boundary holds. -/
def tldTry (run : Str) (after : Str) : ℕ → Option ℕ
  | 0 => none
  | 1 => none
  | j + 2 =>
    match run.get? (j + 1) with
    | some lc =>
      let next := if j + 2 < run.length then run.get? (j + 2) else after.head?
      if xor (wordChar lc) (wordCharOpt next) then some (j + 2)
      else tldTry run after (j + 1)
    | none => tldTry run after (j + 1)

/-- Backtracking for `[A-Za-z0-9.-]+\.[A-Z|a-z]{2,}\b` (after the `@`):
    try the greedy first-quantifier length, then shorter, down to 1. -/
def domTry (rest2 : Str) : ℕ → Option ℕ
  | 0 => none
  | k + 1 =>
    (match rest2.get? (k + 1) with
     | some '.' =>
       let region := rest2.drop (k + 2)
       let run := region.takeWhile tldChar
       match tldTry run (region.drop run.length) run.length with
       | some j => some ((k + 1) + 1 + j)
       | none => domTry rest2 k
     | _ => domTry rest2 k)

/-- Match of EMAIL_PATTERN (text_analytics.py:24-27) anchored at the head of
    `s`; `prevW` says whether the preceding character is a word character
    (for the leading `\b`).  Returns the match length. -/
def matchEmail (prevW : Bool) (s : Str) : Option ℕ :=
  let loc := s.takeWhile localChar
  match loc.head? with
  | none => none
  | some c0 =>
    if prevW = wordChar c0 then none
    else
      match s.drop loc.length with
      | a :: rest2 =>
        if a = '@' then
          match domTry rest2 (rest2.takeWhile domainChar).length with
          | some tl => some (loc.length + 1 + tl)
          | none => none
        else none
      | [] => none

/-- `EMAIL_PATTERN.sub(' ', ·)`: scan left to right, replacing each match
    with a single space and resuming after it.  Each step consumes at least
    one character, so `fuel = length` makes the recursion structural without
    changing the result. -/
def emailSubGo : ℕ → Bool → Str → Str
  | 0, _, s => s
  | _, _, [] => []
  | fuel + 1, prevW, c :: t =>
    match matchEmail prevW (c :: t) with
    | some n =>
      ' ' :: emailSubGo fuel (wordCharOpt (((c :: t).take n).getLast?)) (t.drop (n - 1))
    | none => c :: emailSubGo fuel (wordChar c) t

def emailSub (s : Str) : Str := emailSubGo s.length false s

/-- Match of CLEANUP_PATTERNS[0], `<external\s*email>`, at the head of `s`
    (the text is already lowercased when it is applied). -/
def matchExt (s : Str) : Option ℕ :=
  if isPrefixOfB ("<external").toList s then
    let rest := s.drop 9
    let ws := rest.takeWhile isPySpace
    if isPrefixOfB ("email>").toList (rest.drop ws.length) then
      some (9 + ws.length + 6)
    else none
  else none

/-- Match of CLEANUP_PATTERNS[1], `sent from my (iphone|ipad|android)`,
    at the head of `s` (alternatives tried left to right). -/
def matchSent (s : Str) : Option ℕ :=
  if isPrefixOfB ("sent from my ").toList s then
    let rest := s.drop 13
    if isPrefixOfB ("iphone").toList rest then some 19
    else if isPrefixOfB ("ipad").toList rest then some 17
    else if isPrefixOfB ("android").toList rest then some 20
    else none
  else none

/-- `pattern.sub(' ', ·)` for a pattern without `\b`: scan left to right,
    replacing each match with a single space (fuel-structural as above). -/
def patSubGo (m : Str → Option ℕ) : ℕ → Str → Str
  | 0, s => s
  | _, [] => []
  | fuel + 1, c :: t =>
    match m (c :: t) with
    | some n => ' ' :: patSubGo m fuel (t.drop (n - 1))
    | none => c :: patSubGo m fuel t

def patSub (m : Str → Option ℕ) (s : Str) : Str := patSubGo m s.length s

namespace TextAnalyzer

/-- `TextAnalyzer.clean_text` (text_analytics.py:32-39): `None` (or non-str)
    becomes `''`; otherwise lowercase, blank out e-mail addresses, blank out
    the cleanup patterns, and normalise whitespace via
    `' '.join(result.split())`. -/
def clean_text (text : Option Str) : Str :=
  match text with
  | none => []
  | some s =>
    joinSpace (splitWs (patSub matchSent (patSub matchExt (emailSub (lowerStr s)))))

end TextAnalyzer

/-- `config.KEYWORDS` (config.py:59-91): theme → weighted keyword phrases,
    in source (dict insertion) order. -/
def KEYWORDS : List (String × List (String × ℕ)) :=
  [("Cancellation",
    [("cancel", 1), ("unsubscribe", 1), ("terminate", 1),
     ("how to cancel", 2), ("cannot cancel", 2), ("unable to cancel", 2),
     ("stop subscription", 2), ("end subscription", 2), ("free trial", 1)]),
   ("Billing",
    [("refund", 2), ("charged", 2), ("unexpected charge", 3),
     ("double bill", 3), ("charge after cancel", 3), ("billing", 1),
     ("invoice", 1), ("money back", 2)]),
   ("Login",
    [("password", 2), ("forgot password", 3), ("reset password", 3),
     ("cannot login", 3), ("can't log in", 3), ("unable to login", 3),
     ("locked out", 3), ("reset email", 2), ("email not received", 2)]),
   ("Technical",
    [("not working", 2), ("app crash", 3), ("buffering", 2),
     ("streaming", 1), ("playback", 2), ("error code", 2),
     ("video not load", 2), ("app not load", 3), ("frozen", 2)]),
   ("Payment",
    [("card declined", 3), ("payment failed", 3), ("payment rejected", 3),
     ("update payment", 2), ("card error", 2), ("payment method", 2)]),
   ("Partner",
    [("amazon", 1), ("apple", 1), ("google", 1), ("sky", 2), ("partner", 1)]),
   ("Content",
    [("ufc", 3), ("yellowstone", 3), ("content missing", 2),
     ("show missing", 2), ("episode", 1), ("season", 1)])]

namespace TextAnalyzer

/-- The inner loop of `categorize_text` (text_analytics.py:47-50): a theme's
    score is accumulated over its keywords, adding the weight exactly when
    the keyword occurs in the cleaned text (`if keyword in cleaned`). -/
def themeScore (cleaned : Str) (kws : List (String × ℕ)) : ℕ :=
  kws.foldl (fun acc p => if containsSub cleaned p.1.toList then acc + p.2 else acc) 0

/-- The scores dict of `categorize_text`, in theme insertion order. -/
def theme_scores (cleaned : Str) : List (String × ℕ) :=
  KEYWORDS.map (fun t => (t.1, themeScore cleaned t.2))

/-- Python `max(scores.values())` over a non-empty dict. -/
def maxVal : List (String × ℕ) → ℕ
  | [] => 0
  | x :: xs => xs.foldl (fun a p => max a p.2) x.2

/-- Python `max(scores.items(), key=lambda x: x[1])`: the FIRST item of
    maximal value, since `max` replaces the running best only on a strictly
    greater key. -/
def pickMax : List (String × ℕ) → String × ℕ
  | [] => ("Unknown", 0)
  | x :: xs => xs.foldl (fun best p => if p.2 > best.2 then p else best) x

/-- `TextAnalyzer.categorize_text` (text_analytics.py:41-57). -/
def categorize_text (text : Option Str) : String × ℕ :=
  let cleaned := clean_text text
  if cleaned.isEmpty then ("Unknown", 0)
  else
    let scores := theme_scores cleaned
    if maxVal scores = 0 then ("Unknown", 0)
    else pickMax scores

end TextAnalyzer

/-! ### Weekly aggregation (data_processor.py:158-238)

Dates are days since 1970-01-01 (a Thursday); day 4 = 1970-01-05 is a
Monday, so Mondays are exactly the days `≡ 4 (mod 7)`.  The embedding
starts from the list of successfully parsed, non-null dates (the state of
`df['_parsed_date']` after data_processor.py:175). -/

/-- Polars `.dt.truncate("1w")`: the Monday on or before the given day. -/
def weekStart (d : ℤ) : ℤ := d - (d + 3) % 7

/-- Civil (proleptic Gregorian) date from day number
    (Howard Hinnant's `civil_from_days`; `/` on `ℤ` is floor division for
    the positive divisors used here). -/
def civilFromDays (z0 : ℤ) : ℤ × ℤ × ℤ :=
  let z := z0 + 719468
  let era := z / 146097
  let doe := z - era * 146097
  let yoe := (doe - doe / 1460 + doe / 36524 - doe / 146096) / 365
  let y := yoe + era * 400
  let doy := doe - (365 * yoe + yoe / 4 - yoe / 100)
  let mp := (5 * doy + 2) / 153
  let d := doy - (153 * mp + 2) / 5 + 1
  let m := if mp < 10 then mp + 3 else mp - 9
  (if m ≤ 2 then y + 1 else y, m, d)

/-- Day number from civil date (Hinnant's `days_from_civil`). -/
def daysFromCivil (y m d : ℤ) : ℤ :=
  let y2 := if m ≤ 2 then y - 1 else y
  let era := y2 / 400
  let yoe := y2 - era * 400
  let mp := if 2 < m then m - 3 else m + 9
  let doy := (153 * mp + 2) / 5 + d - 1
  let doe := yoe * 365 + yoe / 4 - yoe / 100 + doy
  era * 146097 + doe - 719468

/-- Polars `.dt.year()`: civil calendar year. -/
def yearOfDays (z : ℤ) : ℤ := (civilFromDays z).1

/-- Polars `.dt.week()`: ISO 8601 week number — the week containing the
    given Monday `w` is numbered by its Thursday's position in the
    Thursday's civil year. -/
def isoWeekOf (w : ℤ) : ℤ :=
  let th := w + 3
  (th - daysFromCivil (yearOfDays th) 1 1) / 7 + 1

/-- One row of the frame returned by `get_weekly_aggregation` (after the
    final `select`). -/
structure WRow where
  year : ℤ
  week : ℤ
  volume : ℕ
  wow_change : Option ℤ
  wow_pct : Option ℚ
  trend : String
deriving DecidableEq, Repr

namespace DataProcessor

/-- data_processor.py:181-190: group by `week_start` with counts, sorted by
    `week_start` ascending. -/
def weeklyCounts (dates : List ℤ) : List (ℤ × ℕ) :=
  List.insertionSort (fun a b => a.1 ≤ b.1) (groupCounts (dates.map weekStart))

/-- data_processor.py:192-205: when more than one week is present, build
    `pl.date_range(min, max, interval="1w")` and left-join the observed
    volumes onto it, filling missing volumes with 0. -/
def gapFill (weekly : List (ℤ × ℕ)) : List (ℤ × ℕ) :=
  if weekly.length ≤ 1 then weekly
  else
    match weekly.map (fun p => p.1) with
    | [] => weekly
    | k0 :: kt =>
      let wmin := kt.foldl min k0
      let wmax := kt.foldl max k0
      ((List.range ((wmax - wmin).toNat / 7 + 1)).map
        (fun (i : ℕ) => wmin + 7 * (i : ℤ))).map
        (fun w =>
          (w, match weekly.find? (fun p => p.1 == w) with
              | some p => p.2
              | none => 0))

/-- data_processor.py:207-212: attach `year = week_start.dt.year()` and
    `week = week_start.dt.week()`, then sort by
    `week_idx = year * 100 + week`. -/
def withYearWeek (l : List (ℤ × ℕ)) : List (ℤ × ℤ × ℕ) :=
  List.insertionSort
    (fun a b => a.1 * 100 + a.2.1 ≤ b.1 * 100 + b.2.1)
    (l.map (fun p => (yearOfDays p.1, isoWeekOf p.1, p.2)))

/-- data_processor.py:229-236: trend classification of `wow_pct`, evaluated
    in the source's `when`-chain order. -/
def trendOf (o : Option ℚ) : String :=
  match o with
  | none => "N/A"
  | some x =>
    if x > 15 then "SPIKE"
    else if x > 5 then "UP"
    else if x < -10 then "DOWN"
    else "FLAT"

/-- data_processor.py:215-226 for one row: `prev` is `volume.shift(1)`;
    `wow_change = volume - prev_volume` (null-propagating integer
    subtraction); `wow_pct` is defined exactly when `prev_volume` is
    non-null and positive. -/
def mkWRow (y w : ℤ) (v : ℕ) (prev : Option ℕ) : WRow :=
  let pct : Option ℚ :=
    match prev with
    | some p => if 0 < p then some (roundTo 10 (((v : ℚ) - p) / p * 100)) else none
    | none => none
  { year := y, week := w, volume := v,
    wow_change := prev.map (fun p => (v : ℤ) - p),
    wow_pct := pct,
    trend := trendOf pct }

/-- The `shift(1)`-based week-over-week pass: each row sees the previous
    row's volume. -/
def addWowGo (prev : Option ℕ) : List (ℤ × ℤ × ℕ) → List WRow
  | [] => []
  | (y, w, v) :: t => mkWRow y w v prev :: addWowGo (some v) t

/-- `DataProcessor.get_weekly_aggregation` (data_processor.py:158-238),
    starting from the parsed non-null dates. -/
def get_weekly_aggregation (dates : List ℤ) : List WRow :=
  if dates.isEmpty then []
  else addWowGo none (withYearWeek (gapFill (weeklyCounts dates)))

end DataProcessor

/-! ### Theorems -/

section Claims

open DataProcessor TextAnalyzer

lemma addWowGo_trend :
    ∀ (l : List (ℤ × ℤ × ℕ)) (prev : Option ℕ) (r : WRow),
      r ∈ addWowGo prev l → r.trend = trendOf r.wow_pct := by
  intro l
  induction l with
  | nil => intro prev r hr; simp [addWowGo] at hr
  | cons x t ih =>
    intro prev r hr
    obtain ⟨y, w, v⟩ := x
    simp only [addWowGo, List.mem_cons] at hr
    rcases hr with h | h
    · subst h; rfl
    · exact ih (some v) r h

/-- Claim C4 — trend labels are the stated function of `wow_pct`, evaluated
    in priority order (null ↦ N/A; `> 15` ↦ SPIKE; `> 5` ↦ UP; `< -10` ↦
    DOWN; otherwise FLAT); at the boundary, `wow_pct = 15.0` classifies as
    UP and `wow_pct = 15.1` as SPIKE. -/
theorem C4_trend_rule :
    (∀ (dates : List ℤ), ∀ r ∈ get_weekly_aggregation dates,
        r.trend = trendOf r.wow_pct) ∧
    (trendOf none = "N/A") ∧
    (∀ q : ℚ,
      (15 < q → trendOf (some q) = "SPIKE") ∧
      (5 < q → q ≤ 15 → trendOf (some q) = "UP") ∧
      (q < -10 → trendOf (some q) = "DOWN") ∧
      (-10 ≤ q → q ≤ 5 → trendOf (some q) = "FLAT")) ∧
    trendOf (some 15) = "UP" ∧
    trendOf (some (151 / 10)) = "SPIKE" := by
  refine ⟨?_, rfl, ?_, by norm_num [trendOf], by norm_num [trendOf]⟩
  · intro dates r hr
    unfold get_weekly_aggregation at hr
    split at hr
    · simp at hr
    · exact addWowGo_trend _ none r hr
  · intro q
    refine ⟨fun h => ?_, fun h h2 => ?_, fun h => ?_, fun h h2 => ?_⟩
    all_goals simp only [trendOf]
    · rw [if_pos h]
    · rw [if_neg (by linarith), if_pos h]
    · rw [if_neg (by linarith), if_neg (by linarith), if_pos h]
    · rw [if_neg (by linarith), if_neg (by linarith), if_neg (by linarith)]

/-- Witness for C4 at concrete inputs: the single series row of a one-date
    dataset satisfies the trend/`wow_pct` relation, and the priority rules
    applied at 16, 10 and -50 give SPIKE, UP and DOWN. -/
theorem C4_trend_rule_witness :
    (mkWRow 2024 1 1 none ∈ get_weekly_aggregation [19723] ∧
      (mkWRow 2024 1 1 none).trend = trendOf (mkWRow 2024 1 1 none).wow_pct) ∧
    trendOf (some 16) = "SPIKE" ∧
    trendOf (some 10) = "UP" ∧
    trendOf (some (-50)) = "DOWN" := by
  have hmem : mkWRow 2024 1 1 none ∈ get_weekly_aggregation [19723] := by decide
  exact ⟨⟨hmem, C4_trend_rule.1 [19723] _ hmem⟩,
    (C4_trend_rule.2.2.1 16).1 (by norm_num),
    (C4_trend_rule.2.2.1 10).2.1 (by norm_num) (by norm_num),
    (C4_trend_rule.2.2.1 (-50)).2.2.1 (by norm_num)⟩

lemma themeScore_foldl (cleaned : Str) :
    ∀ (kws : List (String × ℕ)) (a : ℕ),
      kws.foldl (fun acc p => if containsSub cleaned p.1.toList then acc + p.2 else acc) a =
        a + ((kws.filter (fun p => containsSub cleaned p.1.toList)).map (fun p => p.2)).sum := by
  intro kws
  induction kws with
  | nil => intro a; simp
  | cons p t ih =>
    intro a
    simp only [String.toList] at ih ⊢
    by_cases h : containsSub cleaned p.1.data = true
    · simp [List.foldl_cons, List.filter_cons, h, ih]
      omega
    · simp [List.foldl_cons, List.filter_cons, h, ih]

/-- Claim C6 — a theme's score is the sum of the weights of exactly those
    keywords that occur as substrings of the cleaned text, each counted
    once; repeating a keyword in the text does not change the score
    (`"refund"` thrice scores Billing 2, just as a single occurrence). -/
theorem C6_presence_scoring :
    (∀ (cleaned : Str) (kws : List (String × ℕ)),
        themeScore cleaned kws =
          ((kws.filter (fun p => containsSub cleaned p.1.toList)).map (fun p => p.2)).sum) ∧
    categorize_text (some ("refund refund refund").toList) = ("Billing", 2) ∧
    categorize_text (some ("refund").toList) = ("Billing", 2) := by
  refine ⟨fun cleaned kws => ?_, by decide, by decide⟩
  have h := themeScore_foldl cleaned kws 0
  simpa [themeScore] using h

/-- Claim C8 — the classifier on "I need a refund for my double bill":
    Billing scores 5 (refund = 2, double bill = 3), every other theme
    scores 0, and the result is exactly ("Billing", 5). -/
theorem C8_refund_double_bill :
    categorize_text (some ("I need a refund for my double bill").toList) = ("Billing", 5) ∧
    theme_scores (clean_text (some ("I need a refund for my double bill").toList)) =
      [("Cancellation", 0), ("Billing", 5), ("Login", 0), ("Technical", 0),
       ("Payment", 0), ("Partner", 0), ("Content", 0)] := by
  exact ⟨by decide, by decide⟩

lemma find?_filterMap_key_none {β : Type} (f : String × β → Option (String × String))
    (hf : ∀ p q, f p = some q → q.1 = p.1) (n : String) :
    ∀ l : List (String × β), n ∉ l.map Prod.fst →
      (l.filterMap f).find? (fun q => q.1 == n) = none := by
  intro l
  induction l with
  | nil => intro _; rfl
  | cons p t ih =>
    intro h
    simp only [List.map_cons, List.mem_cons, not_or] at h
    cases hfp : f p with
    | none => simpa [List.filterMap_cons, hfp] using ih h.2
    | some q =>
      have hq : (q.1 == n) = false := by
        have hq1 := hf p q hfp
        simp only [hq1, beq_eq_false_iff_ne, ne_eq]
        exact fun hc => h.1 hc.symm
      simp only [List.filterMap_cons, hfp, List.find?_cons, hq]
      exact ih h.2

lemma find?_append_some {α : Type} (p : α → Bool) {l1 : List α} (l2 : List α) {b : α}
    (h : l1.find? p = some b) : (l1 ++ l2).find? p = some b := by
  induction l1 with
  | nil => simp [List.find?] at h
  | cons a t ih =>
    cases hpa : p a with
    | true => simp_all [List.find?_cons, hpa]
    | false =>
      simp only [List.find?_cons, hpa] at h
      simpa [List.find?_cons, hpa] using ih h

lemma find?_append_none {α : Type} (p : α → Bool) {l1 : List α} (l2 : List α)
    (h : l1.find? p = none) : (l1 ++ l2).find? p = l2.find? p := by
  induction l1 with
  | nil => rfl
  | cons a t ih =>
    cases hpa : p a with
    | true => simp [List.find?_cons, hpa] at h
    | false =>
      simp only [List.find?_cons, hpa] at h
      simpa [List.find?_cons, hpa] using ih h

lemma find?_posEntries (cols : List String) :
    ∀ (M : List (String × ℕ)) (n : String) (i : ℕ),
      (n, i) ∈ M → (M.map Prod.fst).Nodup →
      (M.filterMap (fun p => (cols[p.2]?).map (fun c => (p.1, c)))).find?
          (fun q => q.1 == n) = (cols[i]?).map (fun c => (n, c)) := by
  intro M
  induction M with
  | nil => intro n i h; simp at h
  | cons m t ih =>
    intro n i hmem hnodup
    simp only [List.map_cons, List.nodup_cons] at hnodup
    have hf : ∀ (p : String × ℕ) (q : String × String),
        (cols[p.2]?).map (fun c => (p.1, c)) = some q → q.1 = p.1 := by
      intro p q hq
      rcases Option.map_eq_some'.mp hq with ⟨c, _, rfl⟩
      rfl
    rcases List.mem_cons.mp hmem with heq | hmem'
    · subst heq
      cases hc : cols[i]? with
      | some c =>
        simp [List.filterMap_cons, hc, List.find?_cons]
      | none =>
        simp only [List.filterMap_cons, hc, Option.map_none']
        rw [find?_filterMap_key_none _ hf _ t hnodup.1]
    · have hne : m.1 ≠ n := by
        intro hcontra
        exact hnodup.1 (hcontra ▸ List.mem_map_of_mem Prod.fst hmem')
      cases hfm : cols[m.2]? with
      | none => simpa [List.filterMap_cons, hfm] using ih n i hmem' hnodup.2
      | some c =>
        have hq : ((m.1, c).1 == n) = false := by simp [hne]
        simp only [List.filterMap_cons, hfm, Option.map_some', List.find?_cons, hq]
        exact ih n i hmem' hnodup.2

/-- Claim C9 — the positional resolver binds each fixed-index logical name
    to the column at that index exactly when the dataset is wide enough
    (`get_column` returns `cols[i]?`: the column at `i` when
    `i < cols.length`, `none` — absent, no exception — otherwise). -/
theorem C9_positional_resolver :
    ∀ (cols : List String) (n : String) (i : ℕ),
      (n, i) ∈ COLUMN_MAPPING →
      get_column (detect_columns cols) n = cols[i]? := by
  intro cols n i hmem
  have hnodup : (COLUMN_MAPPING.map Prod.fst).Nodup := by decide
  have hdyn : ∀ p ∈ COLUMN_MAPPING,
      (p : String × ℕ).1 ∉ DYNAMIC_COLUMNS.map Prod.fst := by decide
  have hpos := find?_posEntries cols COLUMN_MAPPING n i hmem hnodup
  have hfdyn : ∀ (p : String × List String) (q : String × String),
      ((cols.find? (fun c =>
          p.2.any (fun pat => containsSub (lowerStr c.toList) pat.toList))).map
        (fun c => (p.1, c))) = some q → q.1 = p.1 := by
    intro p q hq
    rcases Option.map_eq_some'.mp hq with ⟨c, _, rfl⟩
    rfl
  unfold get_column detect_columns
  cases hc : cols[i]? with
  | some c =>
    rw [hc, Option.map_some'] at hpos
    rw [find?_append_some _ _ hpos]
    rfl
  | none =>
    rw [hc, Option.map_none'] at hpos
    rw [find?_append_none _ _ hpos,
      find?_filterMap_key_none _ hfdyn _ DYNAMIC_COLUMNS (hdyn (n, i) hmem)]
    rfl

/-- Witness for C9: on a 3-column dataset, `country` (index 20) is absent
    without error, while `queue` (index 0) binds to the first column. -/
theorem C9_positional_resolver_witness :
    (("country", 20) ∈ COLUMN_MAPPING ∧
      get_column (detect_columns ["c0", "c1", "c2"]) "country" = none) ∧
    (("queue", 0) ∈ COLUMN_MAPPING ∧
      get_column (detect_columns ["c0", "c1", "c2"]) "queue" = some "c0") := by
  refine ⟨⟨by decide, ?_⟩, ⟨by decide, ?_⟩⟩
  · rw [C9_positional_resolver ["c0", "c1", "c2"] "country" 20 (by decide)]; rfl
  · rw [C9_positional_resolver ["c0", "c1", "c2"] "queue" 0 (by decide)]; rfl

/-- Claim C10 — when `filter_col` does not name an existing column, the
    filter is silently skipped: the result equals the unfiltered grouped
    analysis, and every percentage is taken relative to the full row
    count. -/
theorem C10_filter_skipped_on_missing_column :
    ∀ (df : DF) (gcols : List String) (fc fp : String),
      fc ∉ df.cols →
      get_grouped_analysis df gcols (some fc) (some fp) =
        get_grouped_analysis df gcols none none ∧
      ∀ e ∈ get_grouped_analysis df gcols (some fc) (some fp),
        e.2.2 = roundTo 100 ((e.2.1 : ℚ) / df.rows.length * 100) := by
  intro df gcols fc fp h
  have hcond : ¬(fc ≠ "" ∧ fp ≠ "" ∧ fc ∈ df.cols) := fun hcon => h hcon.2.2
  constructor
  · unfold get_grouped_analysis
    dsimp only
    rw [if_neg hcond]
  · intro e he
    unfold get_grouped_analysis at he
    dsimp only at he
    rw [if_neg hcond] at he
    split at he
    · simp at he
    · split at he
      · simp at he
      · have hmem := (List.perm_insertionSort
          (fun a b : List (Option Str) × ℕ × ℚ => b.2.1 ≤ a.2.1) _).mem_iff.mp he
        rcases List.mem_map.mp hmem with ⟨p, _, rfl⟩
        rfl

/-- Witness for C10: a concrete one-column frame, filtered on the absent
    column "B", groups exactly as the unfiltered call. -/
theorem C10_filter_skipped_witness :
    get_grouped_analysis ⟨["A"], [fun _ => some ('x' :: [])]⟩ ["A"]
        (some "B") (some "z") =
      get_grouped_analysis ⟨["A"], [fun _ => some ('x' :: [])]⟩ ["A"] none none :=
  (C10_filter_skipped_on_missing_column ⟨["A"], [fun _ => some ('x' :: [])]⟩
    ["A"] "B" "z" (by decide)).1

lemma matchEmail_none_of_no_at {prevW : Bool} {s : Str} (h : '@' ∉ s) :
    matchEmail prevW s = none := by
  unfold matchEmail
  dsimp only
  cases hh : (s.takeWhile localChar).head? with
  | none => rfl
  | some c0 =>
    dsimp only
    by_cases hw : prevW = wordChar c0
    · rw [if_pos hw]
    · rw [if_neg hw]
      cases hd : s.drop (s.takeWhile localChar).length with
      | nil => rfl
      | cons a r =>
        have ha : ¬(a = '@') := fun hc =>
          h (hc ▸ List.drop_subset _ s (hd.symm ▸ List.mem_cons_self a r))
        dsimp only
        rw [if_neg ha]

lemma emailSubGo_id :
    ∀ (fuel : ℕ) (prevW : Bool) (s : Str), '@' ∉ s →
      emailSubGo fuel prevW s = s := by
  intro fuel
  induction fuel with
  | zero => intro prevW s _; cases s <;> rfl
  | succ f ih =>
    intro prevW s hs
    cases s with
    | nil => rfl
    | cons c t =>
      show (match matchEmail prevW (c :: t) with
        | some n =>
          ' ' :: emailSubGo f (wordCharOpt (((c :: t).take n).getLast?)) (t.drop (n - 1))
        | none => c :: emailSubGo f (wordChar c) t) = c :: t
      rw [matchEmail_none_of_no_at hs]
      rw [ih (wordChar c) t (fun hc => hs (List.mem_cons_of_mem c hc))]

lemma patSubGo_id (m : Str → Option ℕ) (P : Char → Prop)
    (hm : ∀ s : Str, (∀ c ∈ s, P c) → m s = none) :
    ∀ (fuel : ℕ) (s : Str), (∀ c ∈ s, P c) → patSubGo m fuel s = s := by
  intro fuel
  induction fuel with
  | zero => intro s _; cases s <;> rfl
  | succ f ih =>
    intro s hs
    cases s with
    | nil => rfl
    | cons c t =>
      show (match m (c :: t) with
        | some n => ' ' :: patSubGo m f (t.drop (n - 1))
        | none => c :: patSubGo m f t) = c :: t
      rw [hm _ hs]
      rw [ih t (fun x hx => hs x (List.mem_cons_of_mem c hx))]

lemma matchExt_none {s : Str} (h : '<' ∉ s) : matchExt s = none := by
  cases s with
  | nil => rfl
  | cons a t =>
    have ha : decide ('<' = a) = false :=
      decide_eq_false (fun hc => h (hc ▸ List.mem_cons_self a t))
    have hpre : isPrefixOfB ("<external").toList (a :: t) = false := by
      show (decide ('<' = a) && isPrefixOfB ("external").toList t) = false
      rw [ha, Bool.false_and]
    unfold matchExt
    rw [hpre]
    rfl

lemma matchSent_none {s : Str} (h : 's' ∉ s) : matchSent s = none := by
  cases s with
  | nil => rfl
  | cons a t =>
    have ha : decide ('s' = a) = false :=
      decide_eq_false (fun hc => h (hc ▸ List.mem_cons_self a t))
    have hpre : isPrefixOfB ("sent from my ").toList (a :: t) = false := by
      show (decide ('s' = a) && isPrefixOfB ("ent from my ").toList t) = false
      rw [ha, Bool.false_and]
    unfold matchSent
    rw [hpre]
    rfl

lemma pySpace_cases {c : Char} (h : isPySpace c = true) :
    c = ' ' ∨ c = '\t' ∨ c = '\n' ∨ c = '\r' ∨ c = '\x0b' ∨ c = '\x0c' := by
  simp only [isPySpace, Bool.or_eq_true, decide_eq_true_eq] at h
  tauto

lemma splitWs_all_space {s : Str} (hs : ∀ c ∈ s, isPySpace c = true) :
    splitWs s = [] := by
  have hfold : s.foldr splitStep ([], []) = ([], []) := by
    induction s with
    | nil => rfl
    | cons c t ih =>
      have hc := hs c (List.mem_cons_self c t)
      rw [List.foldr_cons, ih (fun x hx => hs x (List.mem_cons_of_mem c hx))]
      simp [splitStep, hc]
  simp [splitWs, hfold]

lemma clean_text_all_space {s : Str} (hs : ∀ c ∈ s, isPySpace c = true) :
    TextAnalyzer.clean_text (some s) = [] := by
  have hlower : lowerStr s = s := by
    have : ∀ c ∈ s, asciiLower c = c := by
      intro c hc
      rcases pySpace_cases (hs c hc) with rfl | rfl | rfl | rfl | rfl | rfl <;> rfl
    induction s with
    | nil => rfl
    | cons c t ih =>
      rw [lowerStr, List.map_cons, this c (List.mem_cons_self c t)]
      have := ih (fun x hx => hs x (List.mem_cons_of_mem c hx))
        (fun x hx => this x (List.mem_cons_of_mem c hx))
      rw [lowerStr] at this
      rw [this]
  have hchar : ∀ (x : Char), x ∈ s → x ≠ '@' ∧ x ≠ '<' ∧ x ≠ 's' := by
    intro x hx
    rcases pySpace_cases (hs x hx) with rfl | rfl | rfl | rfl | rfl | rfl <;>
      exact ⟨by decide, by decide, by decide⟩
  have hemail : emailSub s = s :=
    emailSubGo_id _ _ _ (fun hc => ((hchar _ hc).1 rfl).elim)
  have hext : patSub matchExt s = s :=
    patSubGo_id matchExt (fun c => c ≠ '<')
      (fun u hu => matchExt_none (fun hc => (hu _ hc) rfl)) _ _
      (fun c hc => (hchar c hc).2.1)
  have hsent : patSub matchSent s = s :=
    patSubGo_id matchSent (fun c => c ≠ 's')
      (fun u hu => matchSent_none (fun hc => (hu _ hc) rfl)) _ _
      (fun c hc => (hchar c hc).2.2)
  unfold TextAnalyzer.clean_text
  dsimp only
  rw [hlower, hemail, hext, hsent, splitWs_all_space hs]
  rfl

lemma foldl_max_init_le :
    ∀ (xs : List (String × ℕ)) (a : ℕ), a ≤ xs.foldl (fun b p => max b p.2) a := by
  intro xs
  induction xs with
  | nil => intro a; exact le_rfl
  | cons p t ih =>
    intro a
    exact le_trans (le_max_left a p.2) (ih (max a p.2))

lemma foldl_max_mem_le :
    ∀ (xs : List (String × ℕ)) (a : ℕ) (th : String) (s : ℕ),
      (th, s) ∈ xs → s ≤ xs.foldl (fun b p => max b p.2) a := by
  intro xs
  induction xs with
  | nil => intro a th s h; simp at h
  | cons p t ih =>
    intro a th s h
    rcases List.mem_cons.mp h with heq | hmem
    · have : s ≤ max a p.2 := by rw [← heq]; exact le_max_right a s
      exact le_trans this (foldl_max_init_le t _)
    · exact ih _ th s hmem

lemma maxVal_ge {l : List (String × ℕ)} {th : String} {s : ℕ}
    (h : (th, s) ∈ l) : s ≤ TextAnalyzer.maxVal l := by
  cases l with
  | nil => simp at h
  | cons x xs =>
    rcases List.mem_cons.mp h with heq | hmem
    · have : s = x.2 := by rw [← heq]
      rw [TextAnalyzer.maxVal, this]
      exact foldl_max_init_le xs x.2
    · exact foldl_max_mem_le xs x.2 th s hmem

lemma maxVal_zero {l : List (String × ℕ)} (h : ∀ p ∈ l, (p : String × ℕ).2 = 0) :
    TextAnalyzer.maxVal l = 0 := by
  cases l with
  | nil => rfl
  | cons x xs =>
    rw [TextAnalyzer.maxVal]
    have hx : x.2 = 0 := h x (List.mem_cons_self x xs)
    have : ∀ (t : List (String × ℕ)) (a : ℕ), (∀ p ∈ t, (p : String × ℕ).2 = 0) →
        t.foldl (fun b p => max b p.2) a = a := by
      intro t
      induction t with
      | nil => intro a _; rfl
      | cons q u ih =>
        intro a hq
        rw [List.foldl_cons, hq q (List.mem_cons_self q u), Nat.max_zero]
        exact ih a (fun p hp => hq p (List.mem_cons_of_mem q hp))
    rw [this xs x.2 (fun p hp => h p (List.mem_cons_of_mem x hp)), hx]

lemma pick_keep :
    ∀ (l : List (String × ℕ)) (b : String × ℕ), (∀ p ∈ l, p.2 ≤ b.2) →
      l.foldl (fun best p => if p.2 > best.2 then p else best) b = b := by
  intro l
  induction l with
  | nil => intro b _; rfl
  | cons p t ih =>
    intro b hb
    have : ¬(p.2 > b.2) := not_lt.mpr (hb p (List.mem_cons_self p t))
    rw [List.foldl_cons, if_neg this]
    exact ih b (fun q hq => hb q (List.mem_cons_of_mem p hq))

lemma pick_reach :
    ∀ (l : List (String × ℕ)) (b : String × ℕ) (th : String) (s : ℕ),
      b.2 < s → (th, s) ∈ l → (∀ p ∈ l, p ≠ (th, s) → p.2 < s) →
      l.foldl (fun best p => if p.2 > best.2 then p else best) b = (th, s) := by
  intro l
  induction l with
  | nil => intro b th s _ h _; simp at h
  | cons p t ih =>
    intro b th s hb hmem hmax
    by_cases hp : p = (th, s)
    · subst hp
      rw [List.foldl_cons, if_pos hb]
      refine pick_keep t _ (fun q hq => ?_)
      by_cases hqe : q = (th, s)
      · rw [hqe]
      · exact le_of_lt (hmax q (List.mem_cons_of_mem _ hq) hqe)
    · have hps : p.2 < s := hmax p (List.mem_cons_self p t) hp
      have hmem' : (th, s) ∈ t := by
        rcases List.mem_cons.mp hmem with heq | h
        · exact absurd heq.symm hp
        · exact h
      rw [List.foldl_cons]
      by_cases hstep : p.2 > b.2
      · rw [if_pos hstep]
        exact ih p th s hps hmem' (fun q hq => hmax q (List.mem_cons_of_mem p hq))
      · rw [if_neg hstep]
        exact ih b th s hb hmem' (fun q hq => hmax q (List.mem_cons_of_mem p hq))

lemma pickMax_spec {l : List (String × ℕ)} {th : String} {s : ℕ}
    (hl : (th, s) ∈ l) (hmax : ∀ p ∈ l, p ≠ (th, s) → p.2 < s) :
    TextAnalyzer.pickMax l = (th, s) := by
  cases l with
  | nil => simp at hl
  | cons x xs =>
    rw [TextAnalyzer.pickMax]
    by_cases hx : x = (th, s)
    · subst hx
      refine pick_keep xs _ (fun q hq => ?_)
      by_cases hqe : q = (th, s)
      · rw [hqe]
      · exact le_of_lt (hmax q (List.mem_cons_of_mem _ hq) hqe)
    · have hxs : x.2 < s := hmax x (List.mem_cons_self x xs) hx
      have hmem' : (th, s) ∈ xs := by
        rcases List.mem_cons.mp hl with heq | h
        · exact absurd heq.symm hx
        · exact h
      exact pick_reach xs x th s hxs hmem'
        (fun q hq => hmax q (List.mem_cons_of_mem x hq))

lemma keys_unique :
    ∀ (l : List (String × ℕ)), (l.map Prod.fst).Nodup →
      ∀ {th : String} {s : ℕ} {p : String × ℕ},
        (th, s) ∈ l → p ∈ l → p.1 = th → p = (th, s) := by
  intro l
  induction l with
  | nil => intro _ th s p h; simp at h
  | cons x t ih =>
    intro hnodup th s p hts hp hfst
    simp only [List.map_cons, List.nodup_cons] at hnodup
    rcases List.mem_cons.mp hts with hts1 | hts2
    · rcases List.mem_cons.mp hp with hp1 | hp2
      · rw [hp1, ← hts1]
      · exfalso
        apply hnodup.1
        have hx1 : x.1 = th := by rw [← hts1]
        rw [hx1, ← hfst]
        exact List.mem_map_of_mem Prod.fst hp2
    · rcases List.mem_cons.mp hp with hp1 | hp2
      · exfalso
        apply hnodup.1
        have hx1 : x.1 = th := by rw [← hp1]; exact hfst
        rw [hx1]
        exact List.mem_map_of_mem Prod.fst hts2
      · exact ih hnodup.2 hts2 hp2 hfst

lemma theme_scores_keys (c : Str) :
    (TextAnalyzer.theme_scores c).map Prod.fst =
      ["Cancellation", "Billing", "Login", "Technical", "Payment", "Partner",
       "Content"] := rfl

/-- Claim C7 — `categorize_text` returns ("Unknown", 0) without error on
    absent input, on whitespace-only input, and whenever every theme scores
    0 on the cleaned text; otherwise the theme with the strictly highest
    score (with that score) is returned. -/
theorem C7_unknown_and_argmax :
    TextAnalyzer.categorize_text none = ("Unknown", 0) ∧
    (∀ s : Str, (∀ c ∈ s, isPySpace c = true) →
        TextAnalyzer.categorize_text (some s) = ("Unknown", 0)) ∧
    (∀ t : Option Str,
        (∀ p ∈ TextAnalyzer.theme_scores (TextAnalyzer.clean_text t),
          (p : String × ℕ).2 = 0) →
        TextAnalyzer.categorize_text t = ("Unknown", 0)) ∧
    (∀ (t : Option Str) (th : String) (s : ℕ),
        (th, s) ∈ TextAnalyzer.theme_scores (TextAnalyzer.clean_text t) →
        0 < s →
        (∀ p ∈ TextAnalyzer.theme_scores (TextAnalyzer.clean_text t),
          (p : String × ℕ).1 ≠ th → p.2 < s) →
        TextAnalyzer.categorize_text t = (th, s)) := by
  refine ⟨rfl, fun s hs => ?_, fun t ht => ?_, fun t th s hmem hpos hmax => ?_⟩
  · rw [TextAnalyzer.categorize_text, clean_text_all_space hs]
    rfl
  · rw [TextAnalyzer.categorize_text]
    by_cases hemp : (TextAnalyzer.clean_text t).isEmpty
    · rw [if_pos hemp]
    · rw [if_neg hemp, if_pos (maxVal_zero ht)]
  · have hne : ¬(TextAnalyzer.clean_text t).isEmpty = true := by
      intro hemp
      have hnil : TextAnalyzer.clean_text t = [] := by
        cases hcc : TextAnalyzer.clean_text t with
        | nil => rfl
        | cons a u => rw [hcc] at hemp; simp [List.isEmpty] at hemp
      rw [hnil] at hmem
      have hz : ∀ p ∈ TextAnalyzer.theme_scores [], (p : String × ℕ).2 = 0 := by
        decide
      exact absurd (hz _ hmem) (by omega)
    rw [TextAnalyzer.categorize_text, if_neg hne,
      if_neg (by
        have := maxVal_ge hmem
        omega)]
    refine pickMax_spec hmem (fun p hp hne' => ?_)
    by_cases hfst : p.1 = th
    · exact absurd (keys_unique _ (by rw [theme_scores_keys]; decide) hmem hp hfst) hne'
    · exact hmax p hp hfst

/-- Witness for C7: whitespace-only input gives ("Unknown", 0); on "refund",
    Billing scores 2, strictly above every other theme, and wins. -/
theorem C7_unknown_and_argmax_witness :
    TextAnalyzer.categorize_text (some ("   ").toList) = ("Unknown", 0) ∧
    (("Billing", 2) ∈
        TextAnalyzer.theme_scores (TextAnalyzer.clean_text (some ("refund").toList)) ∧
      TextAnalyzer.categorize_text (some ("refund").toList) = ("Billing", 2)) := by
  refine ⟨C7_unknown_and_argmax.2.1 _ (by decide), ⟨by decide, ?_⟩⟩
  exact C7_unknown_and_argmax.2.2.2 (some ("refund").toList) "Billing" 2
    (by decide) (by decide) (by decide)

lemma roundHalfAway_close (q : ℚ) : |(roundHalfAway q : ℚ) - q| ≤ 1 / 2 := by
  unfold roundHalfAway
  split
  · push_cast
    rw [abs_le]
    constructor
    · linarith [Int.floor_le (-q + 1 / 2)]
    · linarith [Int.lt_floor_add_one (-q + 1 / 2)]
  · rw [abs_le]
    constructor
    · linarith [Int.lt_floor_add_one (q + 1 / 2)]
    · linarith [Int.floor_le (q + 1 / 2)]

lemma roundTo100_close (q : ℚ) : |roundTo 100 q - q| ≤ 1 / 200 := by
  have h := roundHalfAway_close (q * 100)
  rw [abs_le] at h ⊢
  unfold roundTo
  push_cast
  constructor
  · linarith [h.1]
  · linarith [h.2]

lemma sum_abs_bound {β : Type} (f g : β → ℚ) (ε : ℚ) :
    ∀ l : List β, (∀ x ∈ l, |f x - g x| ≤ ε) →
      |(l.map f).sum - (l.map g).sum| ≤ l.length * ε := by
  intro l
  induction l with
  | nil => intro _; simp
  | cons x t ih =>
    intro h
    have hx := h x (List.mem_cons_self x t)
    have ht := ih (fun y hy => h y (List.mem_cons_of_mem x hy))
    simp only [List.map_cons, List.sum_cons, List.length_cons]
    have htri : |f x + (t.map f).sum - (g x + (t.map g).sum)| ≤
        |f x - g x| + |(t.map f).sum - (t.map g).sum| := by
      have := abs_add (f x - g x) ((t.map f).sum - (t.map g).sum)
      have harr : f x + (t.map f).sum - (g x + (t.map g).sum) =
          (f x - g x) + ((t.map f).sum - (t.map g).sum) := by ring
      rw [harr]
      exact this
    calc |f x + (t.map f).sum - (g x + (t.map g).sum)|
        ≤ |f x - g x| + |(t.map f).sum - (t.map g).sum| := htri
      _ ≤ ε + t.length * ε := add_le_add hx ht
      _ = (t.length + 1) * ε := by ring
      _ = ((t.length + 1 : ℕ) : ℚ) * ε := by push_cast; ring

lemma sum_map_add_nat {β : Type} (f g : β → ℕ) :
    ∀ l : List β, (l.map (fun v => f v + g v)).sum = (l.map f).sum + (l.map g).sum := by
  intro l
  induction l with
  | nil => rfl
  | cons x t ih => simp only [List.map_cons, List.sum_cons, ih]; omega

lemma sum_indicator {α : Type} [DecidableEq α] (x : α) :
    ∀ ks : List α, (ks.map (fun v => if (x == v) = true then 1 else 0)).sum = ks.count x := by
  intro ks
  induction ks with
  | nil => rfl
  | cons k t ih =>
    simp only [List.map_cons, List.sum_cons, ih, List.count_cons]
    by_cases h : x = k
    · rw [if_pos (by simp [h]), if_pos (by simp [h])]
      omega
    · rw [if_neg (by simp only [beq_iff_eq]; exact h),
        if_neg (by simp only [beq_iff_eq]; exact fun hc => h hc.symm)]
      omega

lemma sum_counts_over_keys {α : Type} [DecidableEq α] (ks : List α)
    (hnodup : ks.Nodup) :
    ∀ l : List α, (∀ y ∈ l, y ∈ ks) →
      (ks.map (fun v => l.count v)).sum = l.length := by
  intro l
  induction l with
  | nil => intro _; simp
  | cons x t ih =>
    intro hcov
    have hx : x ∈ ks := hcov x (List.mem_cons_self x t)
    simp only [List.count_cons]
    rw [sum_map_add_nat (fun v => t.count v) (fun v => if (x == v) = true then 1 else 0) ks]
    rw [ih (fun y hy => hcov y (List.mem_cons_of_mem x hy))]
    rw [sum_indicator x ks, List.count_eq_one_of_mem hnodup hx]
    simp

lemma sum_groupCounts {α : Type} [DecidableEq α] (l : List α) :
    ((groupCounts l).map (fun p => p.2)).sum = l.length := by
  unfold groupCounts
  rw [List.map_map]
  exact sum_counts_over_keys l.dedup (List.nodup_dedup l) l
    (fun y hy => List.mem_dedup.mpr hy)

lemma sum_map_cast {β : Type} (g : β → ℕ) :
    ∀ l : List β, (l.map (fun x => ((g x : ℕ) : ℚ))).sum = (((l.map g).sum : ℕ) : ℚ) := by
  intro l
  induction l with
  | nil => simp
  | cons x t ih => simp [ih]

lemma sum_map_mul_right {β : Type} (f : β → ℚ) (k : ℚ) :
    ∀ l : List β, (l.map (fun x => f x * k)).sum = (l.map f).sum * k := by
  intro l
  induction l with
  | nil => simp
  | cons x t ih => simp [ih]; ring

/-- Counterexample to claim C1 as stated: on the column `[some 0, none]`
    the only group has count 1 and the code reports `percentage = 50`
    (denominator 2 — the full row count including the null row), whereas
    the claim's formula `count / total_non_null_rows * 100` gives 100. -/
theorem C1_distribution_counterexample :
    get_distribution [some (0 : ℕ), none] = [(some 0, 1, (50 : ℚ))] ∧
    ([some (0 : ℕ), none].filter Option.isSome).length = 1 ∧
    roundTo 100 ((1 : ℚ) / 1 * 100) = 100 ∧
    (50 : ℚ) ≠ 100 := by
  refine ⟨?_, by decide, ?_, by norm_num⟩
  · norm_num [get_distribution, groupCounts, List.insertionSort,
      List.orderedInsert, roundTo, roundHalfAway, List.dedup, List.filter,
      List.count]
  · norm_num [roundTo, roundHalfAway]

/-- Claim C1 amended — `get_distribution` computes, for each group,
    `percentage = round(count / total * 100, 2)` where `total` is the FULL
    dataset row count, null rows included; consequently the percentages sum
    to ≈ 100 (within 0.005 per group) only when the column has no nulls
    (and is non-empty). -/
theorem C1_distribution_percentages {α : Type} [DecidableEq α]
    (col : List (Option α)) :
    (∀ e ∈ get_distribution col,
        (e : Option α × ℕ × ℚ).2.2 = roundTo 100 ((e.2.1 : ℚ) / col.length * 100)) ∧
    (none ∉ col → col ≠ [] →
      |(((get_distribution col).map (fun e => e.2.2)).sum - 100 : ℚ)| ≤
        (get_distribution col).length * (1 / 200)) := by
  constructor
  · intro e he
    unfold get_distribution at he
    dsimp only at he
    have hmem := (List.perm_insertionSort
      (fun a b : Option α × ℕ × ℚ => b.2.1 ≤ a.2.1) _).mem_iff.mp he
    rcases List.mem_map.mp hmem with ⟨p, _, rfl⟩
    rfl
  · intro hnone hne
    unfold get_distribution
    dsimp only
    have hfil : col.filter Option.isSome = col := by
      rw [List.filter_eq_self]
      intro a ha
      cases a with
      | none => exact absurd ha hnone
      | some v => rfl
    rw [hfil]
    have hperm := List.perm_insertionSort
      (fun a b : Option α × ℕ × ℚ => b.2.1 ≤ a.2.1)
      ((groupCounts col).map
        (fun p => (p.1, p.2, roundTo 100 ((p.2 : ℚ) / col.length * 100))))
    rw [hperm.length_eq, (hperm.map (fun e => e.2.2)).sum_eq]
    rw [List.map_map, List.length_map]
    have hTpos : 0 < col.length := List.length_pos.mpr hne
    have hT : ((col.length : ℕ) : ℚ) ≠ 0 := by
      exact_mod_cast hTpos.ne'
    have hsum_exact :
        ((groupCounts col).map (fun p => ((p.2 : ℕ) : ℚ) / col.length * 100)).sum
          = 100 := by
      rw [show (fun p : Option α × ℕ => ((p.2 : ℕ) : ℚ) / col.length * 100) =
          (fun p : Option α × ℕ => ((p.2 : ℕ) : ℚ) * (100 / col.length)) from
        funext (fun p => by ring)]
      rw [sum_map_mul_right (fun p : Option α × ℕ => ((p.2 : ℕ) : ℚ))
        (100 / col.length) (groupCounts col)]
      rw [sum_map_cast (fun p : Option α × ℕ => p.2) (groupCounts col),
        sum_groupCounts col]
      field_simp
    nth_rewrite 2 [← hsum_exact]
    exact sum_abs_bound
      (fun p : Option α × ℕ => roundTo 100 (((p.2 : ℕ) : ℚ) / col.length * 100))
      (fun p : Option α × ℕ => ((p.2 : ℕ) : ℚ) / col.length * 100)
      (1 / 200) (groupCounts col) (fun x _ => roundTo100_close _)

/-- Witness for C1 (amended) at a concrete column: the single group of
    `[some 7, some 7]` reports percentage `round(2 / 2 * 100, 2) = 100` and
    the sum of percentages is within tolerance of 100. -/
theorem C1_distribution_percentages_witness :
    (some 7, 2, (100 : ℚ)) ∈ get_distribution [some (7 : ℕ), some 7] ∧
    (100 : ℚ) = roundTo 100 (((2 : ℕ) : ℚ) / ([some (7 : ℕ), some 7] : List (Option ℕ)).length * 100) ∧
    |((((get_distribution [some (7 : ℕ), some 7]).map (fun e => e.2.2)).sum
      - 100 : ℚ))| ≤ (get_distribution [some (7 : ℕ), some 7]).length * (1 / 200) := by
  have hdist : get_distribution [some (7 : ℕ), some 7] = [(some 7, 2, (100 : ℚ))] := by
    norm_num [get_distribution, groupCounts, List.insertionSort,
      List.orderedInsert, roundTo, roundHalfAway, List.dedup, List.filter,
      List.count]
  have hmem : (some 7, 2, (100 : ℚ)) ∈ get_distribution [some (7 : ℕ), some 7] := by
    rw [hdist]
    exact List.mem_singleton.mpr rfl
  exact ⟨hmem, (C1_distribution_percentages [some (7 : ℕ), some 7]).1 _ hmem,
    (C1_distribution_percentages [some (7 : ℕ), some 7]).2 (by decide) (by decide)⟩

/-- Counterexample to claim C2 as stated: `get_grouped_analysis` groups a
    null key into its own bucket, and `get_top_n` keeps an empty-string
    key — neither is excluded. -/
theorem C2_null_and_empty_keys_counterexample :
    get_grouped_analysis ⟨["A"], [fun _ => none]⟩ ["A"] none none =
      [([none], 1, (100 : ℚ))] ∧
    get_top_n [some ([] : Str)] 10 = [(some [], 1)] := by
  constructor
  · norm_num [get_grouped_analysis, groupCounts, List.insertionSort,
      List.orderedInsert, roundTo, roundHalfAway, List.dedup, List.filter,
      List.count]
  · decide

/-- Claim C2 amended — rows with a null group key are excluded from
    `get_top_n` and `get_distribution` (their group keys are always
    non-null); empty strings are not excluded anywhere, and
    `get_grouped_analysis` does not exclude nulls: a null key can form its
    own bucket there. -/
theorem C2_null_keys :
    (∀ (α : Type) [inst : DecidableEq α] (col : List (Option α)) (n : ℕ),
        ∀ p ∈ get_top_n col n, (p : Option α × ℕ).1 ≠ none) ∧
    (∀ (α : Type) [inst : DecidableEq α] (col : List (Option α)),
        ∀ e ∈ get_distribution col, (e : Option α × ℕ × ℚ).1 ≠ none) ∧
    (∃ (df : DF) (gcols : List String),
        ∃ e ∈ get_grouped_analysis df gcols none none,
          none ∈ (e : List (Option Str) × ℕ × ℚ).1) := by
  refine ⟨?_, ?_, ?_⟩
  · intro α inst col n p hp
    unfold get_top_n at hp
    have hsort := List.take_subset n _ hp
    have hg := (List.perm_insertionSort
      (fun a b : Option α × ℕ => b.2 ≤ a.2) _).mem_iff.mp hsort
    unfold groupCounts at hg
    rcases List.mem_map.mp hg with ⟨v, hv, rfl⟩
    have hvf : v ∈ col.filter Option.isSome := List.mem_dedup.mp hv
    have hsome : Option.isSome v = true := (List.mem_filter.mp hvf).2
    exact Option.isSome_iff_ne_none.mp hsome
  · intro α inst col e he
    unfold get_distribution at he
    dsimp only at he
    have hmem := (List.perm_insertionSort
      (fun a b : Option α × ℕ × ℚ => b.2.1 ≤ a.2.1) _).mem_iff.mp he
    rcases List.mem_map.mp hmem with ⟨p, hp, rfl⟩
    unfold groupCounts at hp
    rcases List.mem_map.mp hp with ⟨v, hv, rfl⟩
    have hvf : v ∈ col.filter Option.isSome := List.mem_dedup.mp hv
    have hsome : Option.isSome v = true := (List.mem_filter.mp hvf).2
    exact Option.isSome_iff_ne_none.mp hsome
  · refine ⟨⟨["A"], [fun _ => none]⟩, ["A"], ([none], 1, (100 : ℚ)), ?_,
      List.mem_singleton.mpr rfl⟩
    have hga : get_grouped_analysis ⟨["A"], [fun _ => none]⟩ ["A"] none none =
        [([none], 1, (100 : ℚ))] := by
      norm_num [get_grouped_analysis, groupCounts, List.insertionSort,
        List.orderedInsert, roundTo, roundHalfAway, List.dedup, List.filter,
        List.count]
    rw [hga]
    exact List.mem_singleton.mpr rfl

/-- Witness for C2 (amended): on `[some 0, none, some 0]` the top-1 group
    key `some 0` is non-null. -/
theorem C2_null_keys_witness :
    (some 0, 2) ∈ get_top_n [some (0 : ℕ), none, some 0] 10 ∧
    (some (0 : ℕ), 2).1 ≠ none := by
  have hmem : (some 0, 2) ∈ get_top_n [some (0 : ℕ), none, some 0] 10 := by decide
  exact ⟨hmem, C2_null_keys.1 ℕ [some (0 : ℕ), none, some 0] 10 _ hmem⟩

lemma addWowGo_getElem? :
    ∀ (l : List (ℤ × ℤ × ℕ)) (prev : Option ℕ) (i : ℕ),
      (addWowGo prev l)[i]? = (l[i]?).map (fun x =>
        mkWRow x.1 x.2.1 x.2.2
          (if i = 0 then prev else (l[i - 1]?).map (fun y => y.2.2))) := by
  intro l
  induction l with
  | nil => intro prev i; simp [addWowGo]
  | cons x t ih =>
    intro prev i
    obtain ⟨y, w, v⟩ := x
    cases i with
    | zero => simp [addWowGo]
    | succ j =>
      simp only [addWowGo, List.getElem?_cons_succ]
      rw [ih (some v) j]
      cases j with
      | zero => simp
      | succ k => simp

/-- Claim C5 — in the weekly series, each row after the first has
    `wow_change = volume - previous volume` (exact integer), and
    `wow_pct = round((volume - prev) / prev * 100, 1)` exactly when the
    previous volume is positive, null when it is zero; the first row has
    null `wow_change` and `wow_pct`. -/
theorem C5_wow_columns (dates : List ℤ) :
    (∀ r0 : WRow, (get_weekly_aggregation dates)[0]? = some r0 →
      r0.wow_change = none ∧ r0.wow_pct = none) ∧
    (∀ (i : ℕ) (ri ri1 : WRow),
      (get_weekly_aggregation dates)[i]? = some ri →
      (get_weekly_aggregation dates)[i + 1]? = some ri1 →
      ri1.wow_change = some ((ri1.volume : ℤ) - (ri.volume : ℤ)) ∧
      (0 < ri.volume →
        ri1.wow_pct = some (roundTo 10
          (((ri1.volume : ℚ) - (ri.volume : ℚ)) / (ri.volume : ℚ) * 100))) ∧
      (ri.volume = 0 → ri1.wow_pct = none)) := by
  unfold get_weekly_aggregation
  split
  · constructor
    · intro r0 h; simp at h
    · intro i ri ri1 h; simp at h
  · set L := withYearWeek (gapFill (weeklyCounts dates)) with hL
    constructor
    · intro r0 h
      rw [addWowGo_getElem? L none 0] at h
      rcases Option.map_eq_some'.mp h with ⟨x, _, rfl⟩
      exact ⟨rfl, rfl⟩
    · intro i ri ri1 hi hi1
      rw [addWowGo_getElem? L none i] at hi
      rw [addWowGo_getElem? L none (i + 1)] at hi1
      rcases Option.map_eq_some'.mp hi with ⟨xi, hxi, rfl⟩
      rcases Option.map_eq_some'.mp hi1 with ⟨xi1, hxi1, rfl⟩
      have hprev : (if i + 1 = 0 then (none : Option ℕ)
          else (L[i + 1 - 1]?).map (fun y => y.2.2)) = some xi.2.2 := by
        rw [if_neg (Nat.succ_ne_zero i)]
        simp only [Nat.add_sub_cancel, hxi, Option.map_some']
      rw [hprev]
      refine ⟨rfl, fun hpos => ?_, fun hzero => ?_⟩
      · show (if 0 < xi.2.2 then some (roundTo 10
            ((((xi1.2.2 : ℕ) : ℚ) - ((xi.2.2 : ℕ) : ℚ)) / ((xi.2.2 : ℕ) : ℚ) * 100))
          else none) = _
        rw [if_pos ?_]
        · rfl
        · exact hpos
      · have hv : xi.2.2 = 0 := hzero
        show (if 0 < xi.2.2 then some (roundTo 10
            ((((xi1.2.2 : ℕ) : ℚ) - ((xi.2.2 : ℕ) : ℚ)) / ((xi.2.2 : ℕ) : ℚ) * 100))
          else none) = none
        rw [hv]
        simp

/-- Witness for C5 on dates in ISO weeks 1 and 2 of 2024 (volumes 1 then
    2): the first row has null `wow_pct`, the second has
    `wow_change = 1` and `wow_pct = round(100, 1) = 100`. -/
theorem C5_wow_columns_witness :
    ((DataProcessor.get_weekly_aggregation [19723, 19730, 19731])[0]? =
        some (DataProcessor.mkWRow 2024 1 1 none) ∧
      (DataProcessor.mkWRow 2024 1 1 none).wow_pct = none) ∧
    ((DataProcessor.get_weekly_aggregation [19723, 19730, 19731])[1]? =
        some (DataProcessor.mkWRow 2024 2 2 (some 1)) ∧
      (DataProcessor.mkWRow 2024 2 2 (some 1)).wow_change = some 1 ∧
      (DataProcessor.mkWRow 2024 2 2 (some 1)).wow_pct =
        some (roundTo 10 (((2 : ℚ) - 1) / 1 * 100))) := by
  have h0 : (DataProcessor.get_weekly_aggregation [19723, 19730, 19731])[0]? =
      some (DataProcessor.mkWRow 2024 1 1 none) := rfl
  have h1 : (DataProcessor.get_weekly_aggregation [19723, 19730, 19731])[1]? =
      some (DataProcessor.mkWRow 2024 2 2 (some 1)) := rfl
  have hfst := (C5_wow_columns [19723, 19730, 19731]).1 _ h0
  have hsnd := (C5_wow_columns [19723, 19730, 19731]).2 0 _ _ h0 h1
  exact ⟨⟨h0, hfst.2⟩, ⟨h1, hsnd.1, hsnd.2.1 (by decide)⟩⟩

lemma map_congr_mem {α β : Type} {f g : α → β} :
    ∀ l : List α, (∀ a ∈ l, f a = g a) → l.map f = l.map g := by
  intro l
  induction l with
  | nil => intro _; rfl
  | cons x t ih =>
    intro h
    simp only [List.map_cons]
    rw [h x (List.mem_cons_self x t), ih (fun a ha => h a (List.mem_cons_of_mem x ha))]

lemma count_map_week (w : ℤ) :
    ∀ dates : List ℤ, (dates.map weekStart).count w =
      (dates.filter (fun d => weekStart d = w)).length := by
  intro dates
  induction dates with
  | nil => rfl
  | cons d t ih =>
    simp only [List.map_cons, List.count_cons, List.filter_cons, ih]
    by_cases h : weekStart d = w
    · rw [if_pos (by simp [h]), if_pos (by simp [h])]
      simp
    · rw [if_neg (by simp [h]), if_neg (by simp [h])]
      omega

lemma find?_int_key_none (w : ℤ) :
    ∀ l : List (ℤ × ℕ), w ∉ l.map (fun p => p.1) →
      l.find? (fun p => p.1 == w) = none := by
  intro l
  induction l with
  | nil => intro _; rfl
  | cons x t ih =>
    intro h
    simp only [List.map_cons, List.mem_cons, not_or] at h
    have hx : (x.1 == w) = false := by
      simp only [beq_eq_false_iff_ne, ne_eq]
      exact fun hc => h.1 hc.symm
    simp only [List.find?_cons, hx]
    exact ih h.2

lemma find?_int_key_unique (w : ℤ) (c : ℕ) :
    ∀ l : List (ℤ × ℕ), (l.map (fun p => p.1)).Nodup → (w, c) ∈ l →
      l.find? (fun p => p.1 == w) = some (w, c) := by
  intro l
  induction l with
  | nil => intro _ h; simp at h
  | cons x t ih =>
    intro hnodup hmem
    simp only [List.map_cons, List.nodup_cons] at hnodup
    rcases List.mem_cons.mp hmem with heq | hmem'
    · subst heq
      simp [List.find?_cons]
    · have hx : x.1 ≠ w := by
        intro hc
        exact hnodup.1 (hc ▸ List.mem_map_of_mem (fun p => p.1) hmem')
      have hxb : (x.1 == w) = false := by
        simp only [beq_eq_false_iff_ne, ne_eq]
        exact hx
      simp only [List.find?_cons, hxb]
      exact ih hnodup.2 hmem'

lemma foldl_min_le (l : List ℤ) :
    ∀ a : ℤ, l.foldl min a ≤ a ∧ ∀ x ∈ l, l.foldl min a ≤ x := by
  induction l with
  | nil => intro a; exact ⟨le_rfl, fun x hx => absurd hx (List.not_mem_nil x)⟩
  | cons y t ih =>
    intro a
    have h := ih (min a y)
    refine ⟨le_trans h.1 (min_le_left a y), fun x hx => ?_⟩
    rcases List.mem_cons.mp hx with rfl | hx'
    · exact le_trans h.1 (min_le_right a x)
    · exact h.2 x hx'

lemma foldl_min_mem (l : List ℤ) :
    ∀ a : ℤ, l.foldl min a = a ∨ l.foldl min a ∈ l := by
  induction l with
  | nil => intro a; exact Or.inl rfl
  | cons y t ih =>
    intro a
    rcases ih (min a y) with h | h
    · rcases min_cases a y with ⟨hm, _⟩ | ⟨hm, _⟩
      · exact Or.inl (by rw [List.foldl_cons, h, hm])
      · exact Or.inr (by rw [List.foldl_cons, h, hm]; exact List.mem_cons_self y t)
    · exact Or.inr (List.mem_cons_of_mem y h)

lemma foldl_max_ge (l : List ℤ) :
    ∀ a : ℤ, a ≤ l.foldl max a ∧ ∀ x ∈ l, x ≤ l.foldl max a := by
  induction l with
  | nil => intro a; exact ⟨le_rfl, fun x hx => absurd hx (List.not_mem_nil x)⟩
  | cons y t ih =>
    intro a
    have h := ih (max a y)
    refine ⟨le_trans (le_max_left a y) h.1, fun x hx => ?_⟩
    rcases List.mem_cons.mp hx with rfl | hx'
    · exact le_trans (le_max_right a x) h.1
    · exact h.2 x hx'

lemma foldl_max_mem (l : List ℤ) :
    ∀ a : ℤ, l.foldl max a = a ∨ l.foldl max a ∈ l := by
  induction l with
  | nil => intro a; exact Or.inl rfl
  | cons y t ih =>
    intro a
    rcases ih (max a y) with h | h
    · rcases max_cases a y with ⟨hm, _⟩ | ⟨hm, _⟩
      · exact Or.inl (by rw [List.foldl_cons, h, hm])
      · exact Or.inr (by rw [List.foldl_cons, h, hm]; exact List.mem_cons_self y t)
    · exact Or.inr (List.mem_cons_of_mem y h)

lemma weekStart_mod (d : ℤ) : weekStart d % 7 = 4 := by
  unfold weekStart
  omega

lemma addWowGo_triples :
    ∀ (l : List (ℤ × ℤ × ℕ)) (prev : Option ℕ),
      (addWowGo prev l).map (fun r => (r.year, r.week, r.volume)) = l := by
  intro l
  induction l with
  | nil => intro prev; rfl
  | cons x t ih =>
    intro prev
    obtain ⟨y, w, v⟩ := x
    simp only [addWowGo, List.map_cons]
    rw [ih (some v)]
    rfl

lemma weeklyCounts_mem (dates : List ℤ) (w : ℤ) (c : ℕ) :
    (w, c) ∈ weeklyCounts dates ↔
      (w ∈ dates.map weekStart ∧ c = (dates.map weekStart).count w) := by
  unfold weeklyCounts
  rw [(List.perm_insertionSort (fun a b : ℤ × ℕ => a.1 ≤ b.1) _).mem_iff]
  unfold groupCounts
  constructor
  · intro h
    rcases List.mem_map.mp h with ⟨v, hv, heq⟩
    have h1 : v = w := congrArg Prod.fst heq
    subst h1
    have h2 : (dates.map weekStart).count v = c := congrArg Prod.snd heq
    exact ⟨List.mem_dedup.mp hv, h2.symm⟩
  · intro hyp
    obtain ⟨hmem, hc⟩ := hyp
    subst hc
    exact List.mem_map.mpr ⟨w, List.mem_dedup.mpr hmem, rfl⟩

lemma weeklyCounts_keys_nodup (dates : List ℤ) :
    ((weeklyCounts dates).map (fun p => p.1)).Nodup := by
  unfold weeklyCounts
  have hperm := (List.perm_insertionSort (fun a b : ℤ × ℕ => a.1 ≤ b.1)
    (groupCounts (dates.map weekStart))).map (fun p => p.1)
  refine hperm.nodup_iff.mpr ?_
  unfold groupCounts
  rw [List.map_map]
  have hid : ((dates.map weekStart).dedup.map
      ((fun p : ℤ × ℕ => p.1) ∘ fun v => (v, (dates.map weekStart).count v))) =
      (dates.map weekStart).dedup := by
    rw [show ((fun p : ℤ × ℕ => p.1) ∘
        fun v : ℤ => (v, (dates.map weekStart).count v)) = id from
      funext (fun v => rfl)]
    exact List.map_id _
  rw [hid]
  exact List.nodup_dedup _

/-- Claim C3 — weekly gap-filling: for any non-empty parsed date list the
    series carries exactly one entry per calendar week-start from the
    minimum to the maximum observed week-start at 1-week (7-day) steps,
    with volume equal to the number of source rows in that week (0 for
    weeks with no rows); in particular, rows only in ISO weeks 1 and 4 of
    2024 (volumes 3 and 2) give exactly 4 entries `[3, 0, 0, 2]` in order. -/
theorem C3_gap_fill :
    (∀ (dates : List ℤ), dates ≠ [] →
      ∃ wmin wmax : ℤ,
        (∀ d ∈ dates, wmin ≤ weekStart d ∧ weekStart d ≤ wmax) ∧
        (∃ d ∈ dates, weekStart d = wmin) ∧
        (∃ d ∈ dates, weekStart d = wmax) ∧
        (∀ d ∈ dates, weekStart d ∈
          (List.range ((wmax - wmin).toNat / 7 + 1)).map
            (fun (i : ℕ) => wmin + 7 * (i : ℤ))) ∧
        ((get_weekly_aggregation dates).map (fun r => (r.year, r.week, r.volume))).Perm
          (((List.range ((wmax - wmin).toNat / 7 + 1)).map
            (fun (i : ℕ) => wmin + 7 * (i : ℤ))).map
            (fun w => (yearOfDays w, isoWeekOf w,
              (dates.filter (fun d => weekStart d = w)).length)))) ∧
    ((get_weekly_aggregation [19723, 19723, 19723, 19744, 19745]).map
        (fun r => (r.year, r.week, r.volume)) =
      [(2024, 1, 3), (2024, 2, 0), (2024, 3, 0), (2024, 4, 2)]) := by
  constructor
  · intro dates hne
    have hie : dates.isEmpty = false := by
      cases dates with
      | nil => exact absurd rfl hne
      | cons a t => rfl
    have hseries :
        (get_weekly_aggregation dates).map (fun r => (r.year, r.week, r.volume)) =
          withYearWeek (gapFill (weeklyCounts dates)) := by
      unfold get_weekly_aggregation
      rw [hie]
      rw [if_neg (by simp)]
      exact addWowGo_triples _ none
    have hWne : weeklyCounts dates ≠ [] := by
      intro hempty
      cases dates with
      | nil => exact hne rfl
      | cons d t =>
        have hm : (weekStart d, ((d :: t).map weekStart).count (weekStart d)) ∈
            weeklyCounts (d :: t) :=
          (weeklyCounts_mem (d :: t) _ _).mpr
            ⟨List.mem_map_of_mem weekStart (List.mem_cons_self d t), rfl⟩
        rw [hempty] at hm
        exact absurd hm (List.not_mem_nil _)
    by_cases hlen : (weeklyCounts dates).length ≤ 1
    · -- single observed week: gap filling is skipped
      obtain ⟨x, hx⟩ : ∃ x, weeklyCounts dates = [x] := by
        cases hW : weeklyCounts dates with
        | nil => exact absurd hW hWne
        | cons x t =>
          cases t with
          | nil => exact ⟨x, rfl⟩
          | cons y u => rw [hW] at hlen; simp at hlen
      have hxmem : (x.1, x.2) ∈ weeklyCounts dates := by
        rw [hx]; exact List.mem_singleton.mpr rfl
      have hxchar := (weeklyCounts_mem dates x.1 x.2).mp hxmem
      have hall : ∀ d ∈ dates, weekStart d = x.1 := by
        intro d hd
        have hm : (weekStart d, (dates.map weekStart).count (weekStart d)) ∈
            weeklyCounts dates :=
          (weeklyCounts_mem dates _ _).mpr ⟨List.mem_map_of_mem weekStart hd, rfl⟩
        rw [hx] at hm
        exact congrArg Prod.fst (List.mem_singleton.mp hm)
      obtain ⟨d0, hd0⟩ := List.exists_mem_of_ne_nil dates hne
      refine ⟨x.1, x.1, ?_, ⟨d0, hd0, hall d0 hd0⟩, ⟨d0, hd0, hall d0 hd0⟩, ?_, ?_⟩
      · intro d hd
        rw [hall d hd]
        exact ⟨le_rfl, le_rfl⟩
      · intro d hd
        rw [hall d hd]
        simp
      · rw [hseries]
        have hgap : gapFill (weeklyCounts dates) = weeklyCounts dates := by
          unfold gapFill
          rw [if_pos hlen]
        rw [hgap, hx]
        unfold withYearWeek
        refine (List.perm_insertionSort _ _).trans ?_
        have hR : (List.range ((x.1 - x.1).toNat / 7 + 1)).map
            (fun (i : ℕ) => x.1 + 7 * (i : ℤ)) = [x.1] := by
          norm_num [List.range_succ]
        rw [hR]
        have hcnt : x.2 = (dates.filter (fun d => weekStart d = x.1)).length := by
          rw [hxchar.2, count_map_week]
        simp only [List.map_cons, List.map_nil]
        rw [hcnt]
    · -- at least two observed weeks: the full range is generated
      push_neg at hlen
      cases hk : (weeklyCounts dates).map (fun p => p.1) with
      | nil =>
        exfalso
        have hlen0 : ((weeklyCounts dates).map (fun p => p.1)).length = 0 := by
          rw [hk]; rfl
        rw [List.length_map] at hlen0
        omega
      | cons k0 kt =>
        have hkeys : ∀ w : ℤ, w ∈ (k0 :: kt) ↔ w ∈ dates.map weekStart := by
          intro w
          rw [← hk]
          constructor
          · intro h
            rcases List.mem_map.mp h with ⟨p, hp, rfl⟩
            exact ((weeklyCounts_mem dates p.1 p.2).mp hp).1
          · intro h
            exact List.mem_map_of_mem (fun p => p.1)
              ((weeklyCounts_mem dates w ((dates.map weekStart).count w)).mpr ⟨h, rfl⟩)
        have hmod : ∀ w ∈ (k0 :: kt), w % 7 = 4 := by
          intro w hw
          rcases List.mem_map.mp ((hkeys w).mp hw) with ⟨d, _, rfl⟩
          exact weekStart_mod d
        have hminmem : kt.foldl min k0 ∈ (k0 :: kt) := by
          rcases foldl_min_mem kt k0 with h | h
          · rw [h]; exact List.mem_cons_self k0 kt
          · exact List.mem_cons_of_mem k0 h
        have hmaxmem : kt.foldl max k0 ∈ (k0 :: kt) := by
          rcases foldl_max_mem kt k0 with h | h
          · rw [h]; exact List.mem_cons_self k0 kt
          · exact List.mem_cons_of_mem k0 h
        have hminle : ∀ w ∈ (k0 :: kt), kt.foldl min k0 ≤ w := by
          intro w hw
          rcases List.mem_cons.mp hw with rfl | hw'
          · exact (foldl_min_le kt w).1
          · exact (foldl_min_le kt k0).2 w hw'
        have hmaxge : ∀ w ∈ (k0 :: kt), w ≤ kt.foldl max k0 := by
          intro w hw
          rcases List.mem_cons.mp hw with rfl | hw'
          · exact (foldl_max_ge kt w).1
          · exact (foldl_max_ge kt k0).2 w hw'
        obtain ⟨dmin, hdmin, hdmineq⟩ := List.mem_map.mp ((hkeys _).mp hminmem)
        obtain ⟨dmax, hdmax, hdmaxeq⟩ := List.mem_map.mp ((hkeys _).mp hmaxmem)
        have hwsmem : ∀ d ∈ dates, weekStart d ∈ (k0 :: kt) := by
          intro d hd
          exact (hkeys _).mpr (List.mem_map_of_mem weekStart hd)
        have hrange : ∀ d ∈ dates, weekStart d ∈
            (List.range (((kt.foldl max k0) - (kt.foldl min k0)).toNat / 7 + 1)).map
              (fun (i : ℕ) => (kt.foldl min k0) + 7 * (i : ℤ)) := by
          intro d hd
          have h1 := hminle _ (hwsmem d hd)
          have h2 := hmaxge _ (hwsmem d hd)
          have h3 := hmod _ (hwsmem d hd)
          have h4 := hmod _ hminmem
          have h5 := hmod _ hmaxmem
          have hdvd : (7 : ℤ) ∣ (weekStart d - kt.foldl min k0) := by omega
          obtain ⟨j, hj⟩ := hdvd
          refine List.mem_map.mpr ?_
          refine ⟨j.toNat, ?_, ?_⟩
          · refine List.mem_range.mpr ?_
            omega
          · omega
        refine ⟨kt.foldl min k0, kt.foldl max k0, ?_,
          ⟨dmin, hdmin, hdmineq⟩, ⟨dmax, hdmax, hdmaxeq⟩, hrange, ?_⟩
        · intro d hd
          exact ⟨hminle _ (hwsmem d hd), hmaxge _ (hwsmem d hd)⟩
        · have hgap : gapFill (weeklyCounts dates) =
              ((List.range (((kt.foldl max k0) - (kt.foldl min k0)).toNat / 7 + 1)).map
                (fun (i : ℕ) => (kt.foldl min k0) + 7 * (i : ℤ))).map
                (fun w => (w, (dates.map weekStart).count w)) := by
            unfold gapFill
            rw [if_neg (by omega)]
            rw [hk]
            refine map_congr_mem _ (fun w hw => ?_)
            by_cases hwin : w ∈ dates.map weekStart
            · rw [find?_int_key_unique w ((dates.map weekStart).count w) _
                (weeklyCounts_keys_nodup dates)
                ((weeklyCounts_mem dates w _).mpr ⟨hwin, rfl⟩)]
            · rw [find?_int_key_none w _ ?_]
              · rw [List.count_eq_zero.mpr hwin]
              · rw [hk]
                intro hcon
                exact hwin ((hkeys w).mp hcon)
          rw [hseries]
          unfold withYearWeek
          refine (List.perm_insertionSort _ _).trans ?_
          rw [hgap, List.map_map]
          have hfin := @map_congr_mem ℤ (ℤ × ℤ × ℕ)
            ((fun p : ℤ × ℕ => (yearOfDays p.1, isoWeekOf p.1, p.2)) ∘
              (fun w : ℤ => (w, (dates.map weekStart).count w)))
            (fun w : ℤ => (yearOfDays w, isoWeekOf w,
              (dates.filter (fun d => weekStart d = w)).length))
            ((List.range (((kt.foldl max k0) - (kt.foldl min k0)).toNat / 7 + 1)).map
              (fun (i : ℕ) => (kt.foldl min k0) + 7 * (i : ℤ)))
            (fun w _ => by
              show (yearOfDays w, isoWeekOf w, (dates.map weekStart).count w) =
                (yearOfDays w, isoWeekOf w,
                  (dates.filter (fun d => weekStart d = w)).length)
              rw [count_map_week])
          rw [hfin]
  · decide

/-- Witness for C3: the gap-fill characterisation instantiated at the
    one-date dataset `[19723]` (Monday 2024-01-01). -/
theorem C3_gap_fill_witness :
    ([19723] : List ℤ) ≠ [] ∧
    ∃ wmin wmax : ℤ,
      (∀ d ∈ ([19723] : List ℤ), wmin ≤ weekStart d ∧ weekStart d ≤ wmax) ∧
      (∃ d ∈ ([19723] : List ℤ), weekStart d = wmin) ∧
      (∃ d ∈ ([19723] : List ℤ), weekStart d = wmax) ∧
      (∀ d ∈ ([19723] : List ℤ), weekStart d ∈
        (List.range ((wmax - wmin).toNat / 7 + 1)).map
          (fun (i : ℕ) => wmin + 7 * (i : ℤ))) ∧
      ((get_weekly_aggregation [19723]).map
          (fun r => (r.year, r.week, r.volume))).Perm
        (((List.range ((wmax - wmin).toNat / 7 + 1)).map
          (fun (i : ℕ) => wmin + 7 * (i : ℤ))).map
          (fun w => (yearOfDays w, isoWeekOf w,
            (([19723] : List ℤ).filter (fun d => weekStart d = w)).length))) :=
  ⟨by decide, C3_gap_fill.1 [19723] (by decide)⟩

end Claims
